import Mathlib

/-!
A verification development for a Rust path tracer.

The numeric type of the program (`f32`) is embedded as an arbitrary linear
ordered field `α`; the square-root primitive, which is not algebraic, is
passed around as an explicit function `sq : α → α`.  Randomness
(`random_in_unit_sphere`, `rng.gen`) is passed as explicit draw arguments.
Trait objects (`dyn Hitable`, `dyn Material`) are embedded as plain
functions and as an abstract material type `μ` paired with a scatter
interpretation.  All definitions mirror the Rust source; concrete
evaluations instantiate `α := ℚ`.
-/

set_option linter.unusedSectionVars false

namespace Raytracer

variable {α : Type} [LinearOrderedField α] {μ : Type}

/-- The three-component vector `Vec3(pub f32, pub f32, pub f32)`. -/
structure Vec3 (α : Type) where
  x : α
  y : α
  z : α
  deriving DecidableEq, Repr

/-- Componentwise negation (`impl ops::Neg for Vec3`). -/
def Vec3.neg (v : Vec3 α) : Vec3 α := ⟨-v.x, -v.y, -v.z⟩

/-- Componentwise addition (`impl ops::Add<Vec3> for Vec3`). -/
def Vec3.add (a b : Vec3 α) : Vec3 α := ⟨a.x + b.x, a.y + b.y, a.z + b.z⟩

/-- Componentwise subtraction (`impl ops::Sub<Vec3> for Vec3`). -/
def Vec3.sub (a b : Vec3 α) : Vec3 α := ⟨a.x - b.x, a.y - b.y, a.z - b.z⟩

/-- Componentwise multiplication (`impl ops::Mul<Vec3> for Vec3`). -/
def Vec3.mul (a b : Vec3 α) : Vec3 α := ⟨a.x * b.x, a.y * b.y, a.z * b.z⟩

/-- Scalar multiplication from the left (`impl ops::Mul<Vec3> for f32`). -/
def Vec3.smul (r : α) (v : Vec3 α) : Vec3 α := ⟨r * v.x, r * v.y, r * v.z⟩

/-- Scalar multiplication from the right (`impl ops::Mul<f32> for Vec3`). -/
def Vec3.mulScalar (v : Vec3 α) (r : α) : Vec3 α := ⟨v.x * r, v.y * r, v.z * r⟩

/-- Scalar division from the right (`impl ops::Div<f32> for Vec3`). -/
def Vec3.divScalar (v : Vec3 α) (r : α) : Vec3 α := ⟨v.x / r, v.y / r, v.z / r⟩

instance : Neg (Vec3 α) := ⟨Vec3.neg⟩

instance : Add (Vec3 α) := ⟨Vec3.add⟩

instance : Sub (Vec3 α) := ⟨Vec3.sub⟩

instance : Mul (Vec3 α) := ⟨Vec3.mul⟩

instance : SMul α (Vec3 α) := ⟨Vec3.smul⟩

instance : HMul (Vec3 α) α (Vec3 α) := ⟨Vec3.mulScalar⟩

instance : HDiv (Vec3 α) α (Vec3 α) := ⟨Vec3.divScalar⟩

@[simp] theorem Vec3.neg_x (v : Vec3 α) : (-v).x = -v.x := rfl

@[simp] theorem Vec3.neg_y (v : Vec3 α) : (-v).y = -v.y := rfl

@[simp] theorem Vec3.neg_z (v : Vec3 α) : (-v).z = -v.z := rfl

@[simp] theorem Vec3.add_x (a b : Vec3 α) : (a + b).x = a.x + b.x := rfl

@[simp] theorem Vec3.add_y (a b : Vec3 α) : (a + b).y = a.y + b.y := rfl

@[simp] theorem Vec3.add_z (a b : Vec3 α) : (a + b).z = a.z + b.z := rfl

@[simp] theorem Vec3.sub_x (a b : Vec3 α) : (a - b).x = a.x - b.x := rfl

@[simp] theorem Vec3.sub_y (a b : Vec3 α) : (a - b).y = a.y - b.y := rfl

@[simp] theorem Vec3.sub_z (a b : Vec3 α) : (a - b).z = a.z - b.z := rfl

@[simp] theorem Vec3.mul_x (a b : Vec3 α) : (a * b).x = a.x * b.x := rfl

@[simp] theorem Vec3.mul_y (a b : Vec3 α) : (a * b).y = a.y * b.y := rfl

@[simp] theorem Vec3.mul_z (a b : Vec3 α) : (a * b).z = a.z * b.z := rfl

@[simp] theorem Vec3.smul_x (r : α) (v : Vec3 α) : (r • v).x = r * v.x := rfl

@[simp] theorem Vec3.smul_y (r : α) (v : Vec3 α) : (r • v).y = r * v.y := rfl

@[simp] theorem Vec3.smul_z (r : α) (v : Vec3 α) : (r • v).z = r * v.z := rfl

@[simp] theorem Vec3.mulScalar_x (v : Vec3 α) (r : α) : (v * r).x = v.x * r := rfl

@[simp] theorem Vec3.mulScalar_y (v : Vec3 α) (r : α) : (v * r).y = v.y * r := rfl

@[simp] theorem Vec3.mulScalar_z (v : Vec3 α) (r : α) : (v * r).z = v.z * r := rfl

@[simp] theorem Vec3.divScalar_x (v : Vec3 α) (r : α) : (v / r).x = v.x / r := rfl

@[simp] theorem Vec3.divScalar_y (v : Vec3 α) (r : α) : (v / r).y = v.y / r := rfl

@[simp] theorem Vec3.divScalar_z (v : Vec3 α) (r : α) : (v / r).z = v.z / r := rfl

theorem Vec3.ext_iff' {a b : Vec3 α} : a = b ↔ a.x = b.x ∧ a.y = b.y ∧ a.z = b.z := by
  constructor
  · rintro rfl; exact ⟨rfl, rfl, rfl⟩
  · rcases a with ⟨ax, ay, az⟩
    rcases b with ⟨bx, by', bz⟩
    rintro ⟨h1, h2, h3⟩
    simp_all

/-- The squared modulus `squared_length` (`powi(2)` on each component). -/
def Vec3.squared_length (v : Vec3 α) : α := v.x ^ 2 + v.y ^ 2 + v.z ^ 2

/-- The modulus `length = squared_length.sqrt()`; `sq` embeds `f32::sqrt`. -/
def Vec3.length (sq : α → α) (v : Vec3 α) : α := sq v.squared_length

/-- The free function `dot`. -/
def dot (v1 v2 : Vec3 α) : α := v1.x * v2.x + v1.y * v2.y + v1.z * v2.z

/-- The free function `cross`. -/
def cross (v1 v2 : Vec3 α) : Vec3 α :=
  ⟨v1.y * v2.z - v1.z * v2.y, v1.z * v2.x - v1.x * v2.z, v1.x * v2.y - v1.y * v2.x⟩

/-- The free function `unit_vector(v) = *v / v.length()`. -/
def unit_vector (sq : α → α) (v : Vec3 α) : Vec3 α := v / v.length sq

/-- C8: for every pair of Vec3 values a and b, `dot(a,b) == dot(b,a)` and
`cross(a,b) == -cross(b,a)`, componentwise. -/
theorem dot_comm_cross_antisymm (a b : Vec3 α) :
    dot a b = dot b a ∧ cross a b = -cross b a := by
  constructor
  · simp only [dot]; ring
  · rw [Vec3.ext_iff']
    refine ⟨?_, ?_, ?_⟩ <;> simp only [cross, Vec3.neg_x, Vec3.neg_y, Vec3.neg_z] <;> ring

/-- A ray `origin + t * direction`. -/
structure Ray (α : Type) where
  origin : Vec3 α
  direction : Vec3 α
  deriving DecidableEq, Repr

/-- Construct a ray (`Ray::new`). -/
def Ray.new (origin direction : Vec3 α) : Ray α := ⟨origin, direction⟩

/-- Evaluate the ray at parameter `t`: `self.origin + t * self.direction`. -/
def Ray.point_at_parameter (r : Ray α) (t : α) : Vec3 α := r.origin + t • r.direction

/-- The result of a successful intersection test.  The shared material
reference (`Arc<dyn Material>`) is embedded as a value of an abstract
material type `μ`. -/
structure HitRecord (α : Type) (μ : Type) where
  parameter : α
  point_at_parameter : Vec3 α
  normal : Vec3 α
  material : μ
  deriving DecidableEq, Repr

/-- A sphere: center, radius, and material reference. -/
structure Sphere (α : Type) (μ : Type) where
  center : Vec3 α
  radius : α
  material : μ
  deriving DecidableEq, Repr

/-- Construct a sphere (`Sphere::new`); no validation of any field. -/
def Sphere.new (center : Vec3 α) (radius : α) (material : μ) : Sphere α μ :=
  ⟨center, radius, material⟩

/-- The body of `impl Hitable for Sphere { fn intersect }`. -/
def Sphere.intersect (sq : α → α) (s : Sphere α μ) (ray : Ray α) (t_min t_max : α) :
    Option (HitRecord α μ) :=
  let oc := ray.origin - s.center
  let a := dot ray.direction ray.direction
  let b := dot oc ray.direction
  let c := dot oc oc - s.radius ^ 2
  let discriminant := b * b - a * c
  if discriminant > 0 then
    let t1 := (-b - sq discriminant) / a
    if t_min < t1 ∧ t1 < t_max then
      some ⟨t1, ray.point_at_parameter t1,
        (ray.point_at_parameter t1 - s.center) / s.radius, s.material⟩
    else
      let t2 := (-b + sq discriminant) / a
      if t_min < t2 ∧ t2 < t_max then
        some ⟨t2, ray.point_at_parameter t2,
          (ray.point_at_parameter t2 - s.center) / s.radius, s.material⟩
      else none
  else none

/-- C2: Sphere.intersect computes `a = dot(d,d)`, `b = dot(oc,d)`,
`c = dot(oc,oc) - r^2` with `oc = origin - center` and discriminant
`b^2 - a*c`; it returns none when the discriminant is `<= 0`; otherwise a hit
at the smaller root `(-b - sqrt(disc))/a` if that root lies strictly inside
`(t_min, t_max)`, else a hit at the larger root `(-b + sqrt(disc))/a` if that
one does, else none; any returned record has
`point = ray.point_at_parameter(t)` and `normal = (point - center)/radius`,
with no sign flip toward the incoming ray. -/
theorem sphere_intersect_roots (sq : α → α) (s : Sphere α μ) (ray : Ray α) (t_min t_max : α) :
    Sphere.intersect sq s ray t_min t_max =
      (let oc := ray.origin - s.center
       let a := dot ray.direction ray.direction
       let b := dot oc ray.direction
       let c := dot oc oc - s.radius ^ 2
       let discriminant := b * b - a * c
       let t1 := (-b - sq discriminant) / a
       let t2 := (-b + sq discriminant) / a
       if discriminant ≤ 0 then none
       else if t_min < t1 ∧ t1 < t_max then
         some ⟨t1, ray.point_at_parameter t1,
           (ray.point_at_parameter t1 - s.center) / s.radius, s.material⟩
       else if t_min < t2 ∧ t2 < t_max then
         some ⟨t2, ray.point_at_parameter t2,
           (ray.point_at_parameter t2 - s.center) / s.radius, s.material⟩
       else none) := by
  simp only [Sphere.intersect]
  split_ifs <;> first | rfl | (exfalso; linarith)

/-- C10: Sphere::new accepts any radius, including negative values, without
validation, and for a sphere with radius < 0 every record returned by
Sphere.intersect has `normal = (hit_point - center)/radius`, a negative
scalar multiple of the outward offset (the normal points toward the
center). -/
theorem sphere_new_negative_radius (sq : α → α) (c : Vec3 α) (r : α) (m : μ)
    (ray : Ray α) (t_min t_max : α) :
    (Sphere.new c r m).radius = r ∧ (Sphere.new c r m).center = c ∧
    (∀ rec, Sphere.intersect sq (Sphere.new c r m) ray t_min t_max = some rec →
      rec.normal = (rec.point_at_parameter - c) / r ∧
      (r < 0 → ∃ k : α, k < 0 ∧ rec.normal = k • (rec.point_at_parameter - c))) := by
  refine ⟨rfl, rfl, ?_⟩
  intro rec hrec
  have hnorm : rec.normal = (rec.point_at_parameter - c) / r := by
    simp only [Sphere.intersect, Sphere.new] at hrec
    split_ifs at hrec <;> (injection hrec with h; rw [← h])
  refine ⟨hnorm, fun hr => ⟨r⁻¹, inv_lt_zero.mpr hr, ?_⟩⟩
  rw [hnorm, Vec3.ext_iff']
  refine ⟨?_, ?_, ?_⟩ <;>
    simp [Vec3.divScalar_x, Vec3.divScalar_y, Vec3.divScalar_z, div_eq_inv_mul]

/-- Reflection about the normal: `*v - 2. * dot(&v, &n) * *n`. -/
def reflect (v n : Vec3 α) : Vec3 α := v - (2 * dot v n) • n

/-- Refraction by Snell's law; none when total internal reflection occurs. -/
def refract (sq : α → α) (v n : Vec3 α) (ni_over_nt : α) : Option (Vec3 α) :=
  let uv := unit_vector sq v
  let dt := dot uv n
  let discriminant := 1 - ni_over_nt ^ 2 * (1 - dt ^ 2)
  if discriminant > 0 then
    some (ni_over_nt • (uv - n * dt) - n * sq discriminant)
  else
    none

/-- Schlick's approximation for the angle dependence of reflectivity. -/
def schlick (cosine ref_idx : α) : α :=
  let r0 := ((1 - ref_idx) / (1 + ref_idx)) ^ 2
  r0 + (1 - r0) * (1 - cosine) ^ 5

/-- A Lambertian (diffuse) material: its attenuation color. -/
structure Lambertian (α : Type) where
  attenuation : Vec3 α
  deriving DecidableEq, Repr

/-- Construct a Lambertian material (`Lambertian::new`). -/
def Lambertian.new (attenuation : Vec3 α) : Lambertian α := ⟨attenuation⟩

/-- The body of `impl Material for Lambertian { fn scatter }`.  The draw of
`random_in_unit_sphere()` is the explicit argument `rnd`. -/
def Lambertian.scatter (m : Lambertian α) (rnd : Vec3 α) (_ray : Ray α)
    (hit : HitRecord α μ) : Option (Ray α × Vec3 α) :=
  let target := hit.point_at_parameter + hit.normal + rnd
  let scattered := Ray.new hit.point_at_parameter (target - hit.point_at_parameter)
  some (scattered, m.attenuation)

/-- A metal (reflective) material: attenuation color and fuzziness. -/
structure Metal (α : Type) where
  attenuation : Vec3 α
  fuzzy : α
  deriving DecidableEq, Repr

/-- The body of `Metal::new`: `fuzzy` larger than 1 is stored as 1, any other
value (negative values included) is stored unchanged. -/
def Metal.new (attenuation : Vec3 α) (fuzzy : α) : Metal α :=
  if fuzzy > 1 then ⟨attenuation, 1⟩ else ⟨attenuation, fuzzy⟩

/-- The body of `impl Material for Metal { fn scatter }`.  The draw of
`random_in_unit_sphere()` is the explicit argument `rnd`. -/
def Metal.scatter (sq : α → α) (m : Metal α) (rnd : Vec3 α) (ray : Ray α)
    (hit : HitRecord α μ) : Option (Ray α × Vec3 α) :=
  let reflected := reflect (unit_vector sq ray.direction) hit.normal
  let scattered := Ray.new hit.point_at_parameter (reflected + m.fuzzy • rnd)
  if dot scattered.direction hit.normal > 0 then
    some (scattered, m.attenuation)
  else
    none

/-- A Dielectric (transparent) material: its refractive index. -/
structure Dielectric (α : Type) where
  ref_idx : α
  deriving DecidableEq, Repr

/-- Construct a dielectric material (`Dielectric::new`). -/
def Dielectric.new (ref_idx : α) : Dielectric α := ⟨ref_idx⟩

/-- The body of `impl Material for Dielectric { fn scatter }`.  The draw of
`rng.gen::<f32>()` is the explicit argument `rnd`. -/
def Dielectric.scatter (sq : α → α) (m : Dielectric α) (rnd : α) (ray : Ray α)
    (hit : HitRecord α μ) : Option (Ray α × Vec3 α) :=
  let reflected := reflect ray.direction hit.normal
  let normal_dir := dot ray.direction hit.normal
  let outward_normal := if normal_dir > 0 then -hit.normal else hit.normal
  let ni_over_nt := if normal_dir > 0 then m.ref_idx else 1 / m.ref_idx
  let cosine :=
    if normal_dir > 0 then
      m.ref_idx * dot ray.direction hit.normal / ray.direction.length sq
    else
      -dot ray.direction hit.normal / ray.direction.length sq
  let attenuation : Vec3 α := ⟨1, 1, 1⟩
  match refract sq ray.direction outward_normal ni_over_nt with
  | none => some (Ray.new hit.point_at_parameter reflected, attenuation)
  | some refracted =>
    if rnd < schlick cosine m.ref_idx then
      some (Ray.new hit.point_at_parameter reflected, attenuation)
    else
      some (Ray.new hit.point_at_parameter refracted, attenuation)

/-- C4: Lambertian.scatter always returns some, with scattered origin equal
to the hit point and attenuation equal to its albedo; Metal.scatter returns
none exactly when the perturbed reflection direction's dot product with the
hit normal is `<= 0`, and otherwise returns some with the perturbed reflected
ray from the hit point and attenuation equal to its albedo. -/
theorem lambertian_metal_scatter (sq : α → α) (l : Lambertian α) (m : Metal α)
    (rnd : Vec3 α) (ray : Ray α) (hit : HitRecord α μ) :
    (∃ d, Lambertian.scatter l rnd ray hit =
      some (Ray.new hit.point_at_parameter d, l.attenuation)) ∧
    (Metal.scatter sq m rnd ray hit = none ↔
      dot (reflect (unit_vector sq ray.direction) hit.normal + m.fuzzy • rnd) hit.normal ≤ 0) ∧
    (∀ p, Metal.scatter sq m rnd ray hit = some p →
      p = (Ray.new hit.point_at_parameter
             (reflect (unit_vector sq ray.direction) hit.normal + m.fuzzy • rnd),
           m.attenuation)) := by
  refine ⟨⟨_, rfl⟩, ?_, ?_⟩
  · simp only [Metal.scatter]
    split_ifs with h
    · simp only [reduceCtorEq, false_iff, not_le]
      exact h
    · simp only [true_iff]
      exact not_lt.mp h
  · intro p hp
    simp only [Metal.scatter] at hp
    split_ifs at hp
    injection hp with h
    exact h.symm

/-- C5: Dielectric.scatter returns some on every input (it never absorbs),
and the attenuation of the returned pair is exactly `(1,1,1)` in every
branch (refraction, probabilistic reflection, total internal reflection). -/
theorem dielectric_scatter_attenuation (sq : α → α) (m : Dielectric α) (rnd : α)
    (ray : Ray α) (hit : HitRecord α μ) :
    ∃ r', Dielectric.scatter sq m rnd ray hit = some (r', (⟨1, 1, 1⟩ : Vec3 α)) := by
  simp only [Dielectric.scatter]
  rcases hr : refract sq ray.direction
      (if dot ray.direction hit.normal > 0 then -hit.normal else hit.normal)
      (if dot ray.direction hit.normal > 0 then m.ref_idx else 1 / m.ref_idx) with _ | refracted
  · exact ⟨_, rfl⟩
  · dsimp only
    split_ifs <;> exact ⟨_, rfl⟩

/-- C6 (counter-evidence): the claim says the stored fuzz of every
constructed Metal lies in `[0,1]`, clamped at construction; the code only
clamps values above 1, so `Metal::new` with fuzz `-1/2` stores `-1/2`,
which is negative.  This contradicts the doc comment of `Metal::new`
("fuzzy is forced to be between 0 and 1"). -/
theorem metal_new_no_lower_clamp :
    (Metal.new (⟨1, 1, 1⟩ : Vec3 ℚ) (-(1/2))).fuzzy = -(1/2) ∧
    (Metal.new (⟨1, 1, 1⟩ : Vec3 ℚ) (-(1/2))).fuzzy < 0 := by
  constructor
  · rw [Metal.new, if_neg (by norm_num)]
  · rw [Metal.new, if_neg (by norm_num)]
    norm_num

/-- C6 (the part of the claim the code does satisfy): the stored fuzz never
exceeds 1, since values above 1 are replaced by 1 at construction. -/
theorem metal_new_upper_clamp (attenuation : Vec3 α) (fuzzy : α) :
    (Metal.new attenuation fuzzy).fuzzy ≤ 1 ∨ (Metal.new attenuation fuzzy).fuzzy = fuzzy := by
  rw [Metal.new]
  split_ifs
  · exact Or.inl le_rfl
  · exact Or.inr rfl

/-- A hittable object (`Box<dyn Hitable>`), embedded as its `intersect`
method: ray, `t_min`, `t_max` to an optional hit record. -/
def HitableFun (α μ : Type) : Type :=
  Ray α → α → α → Option (HitRecord α μ)

/-- A scatter interpretation of the abstract material type `μ`
(the dispatch of `hit.material.scatter(&r, &hit)`). -/
def ScatterFun (α μ : Type) : Type :=
  μ → Ray α → HitRecord α μ → Option (Ray α × Vec3 α)

/-- The recursive `color` function of `src/bin/raytracing.rs`.  The world is
an abstract hittable `w`, material dispatch is `scat`, `f32_max` embeds
`std::f32::MAX`, and `depth` is the `i32` recursion depth.  The recursion is
well founded because each recursive call increases `depth`, which the guard
bounds by 50. -/
def color (sq : α → α) (w : HitableFun α μ) (scat : ScatterFun α μ) (f32_max : α)
    (r : Ray α) (depth : ℤ) : Vec3 α :=
  match w r (1 / 1000) f32_max with
  | some hit =>
    match scat hit.material r hit with
    | some (scattered, attenuation) =>
      if _h : depth < 50 then
        attenuation * color sq w scat f32_max scattered (depth + 1)
      else
        ⟨0, 0, 0⟩
    | none => ⟨0, 0, 0⟩
  | none =>
    let unit_direction := unit_vector sq r.direction
    let t := (1 / 2 : α) * (unit_direction.y + 1)
    (1 - t) • (⟨1, 1, 1⟩ : Vec3 α) + t • (⟨1 / 2, 7 / 10, 1⟩ : Vec3 α)
termination_by (50 - depth).toNat
decreasing_by omega

/-- C3: when the ray hits an object whose material scatters, color returns
the attenuation componentwise-multiplied by the color of the scattered ray
at depth+1 if depth < 50, and returns black `(0,0,0)` if depth >= 50
regardless of the scatter result; the recursion depth is hard-capped at 50,
and the recursion terminates on every input (in this embedding `color` is a
total function, defined by well-founded recursion on `50 - depth`). -/
theorem color_depth_cap (sq : α → α) (w : HitableFun α μ) (scat : ScatterFun α μ)
    (f32_max : α) (r : Ray α) (depth : ℤ) (hit : HitRecord α μ)
    (scattered : Ray α) (attenuation : Vec3 α)
    (hhit : w r (1 / 1000) f32_max = some hit)
    (hscat : scat hit.material r hit = some (scattered, attenuation)) :
    color sq w scat f32_max r depth =
      if depth < 50 then
        attenuation * color sq w scat f32_max scattered (depth + 1)
      else
        ⟨0, 0, 0⟩ := by
  rw [color, hhit]
  dsimp only
  rw [hscat]
  split_ifs <;> rfl

/-- C7: a ray that intersects no object yields the background gradient
`(1-t)*(1,1,1) + t*(0.5,0.7,1.0)` with `t = 0.5*(y+1)`, `y` the vertical
component of the normalized direction; with an exact square root at 1,
direction `(0,1,0)` yields `(0.5,0.7,1.0)` and direction `(0,-1,0)`
yields `(1,1,1)`. -/
theorem color_background_gradient (sq : α → α) (w : HitableFun α μ)
    (scat : ScatterFun α μ) (f32_max : α) (r : Ray α) (depth : ℤ)
    (hmiss : w r (1 / 1000) f32_max = none) :
    color sq w scat f32_max r depth =
      (1 - (1 / 2 : α) * ((unit_vector sq r.direction).y + 1)) • (⟨1, 1, 1⟩ : Vec3 α)
      + ((1 / 2 : α) * ((unit_vector sq r.direction).y + 1)) • (⟨1 / 2, 7 / 10, 1⟩ : Vec3 α) ∧
    (r.direction = ⟨0, 1, 0⟩ → sq 1 = 1 →
      color sq w scat f32_max r depth = ⟨1 / 2, 7 / 10, 1⟩) ∧
    (r.direction = ⟨0, -1, 0⟩ → sq 1 = 1 →
      color sq w scat f32_max r depth = ⟨1, 1, 1⟩) := by
  have hbg : color sq w scat f32_max r depth =
      (1 - (1 / 2 : α) * ((unit_vector sq r.direction).y + 1)) • (⟨1, 1, 1⟩ : Vec3 α)
      + ((1 / 2 : α) * ((unit_vector sq r.direction).y + 1)) • (⟨1 / 2, 7 / 10, 1⟩ : Vec3 α) := by
    rw [color, hmiss]
  refine ⟨hbg, ?_, ?_⟩
  · intro hdir hsq
    have hy : (unit_vector sq r.direction).y = 1 := by
      rw [hdir]
      simp [unit_vector, Vec3.length, Vec3.squared_length, hsq]
    rw [hbg, hy, Vec3.ext_iff']
    refine ⟨?_, ?_, ?_⟩ <;> norm_num
  · intro hdir hsq
    have hy : (unit_vector sq r.direction).y = -1 := by
      rw [hdir]
      simp [unit_vector, Vec3.length, Vec3.squared_length, hsq]
    rw [hbg, hy, Vec3.ext_iff']
    refine ⟨?_, ?_, ?_⟩ <;> norm_num

/-- An ordered collection of hittable objects (`HitableList`). -/
structure HitableList (α μ : Type) where
  hitable_objects : List (HitableFun α μ)

/-- Construct a collection of hitable objects (`HitableList::new`). -/
def HitableList.new (hitable_objects : List (HitableFun α μ)) : HitableList α μ :=
  ⟨hitable_objects⟩

/-- The loop of `impl Hitable for HitableList { fn intersect }`: scan the
members in order, threading the mutable state `closest_so_far` (initialized
by the caller to `t_max`) and `hit_record` (initialized to none); an accepted
hit shrinks `closest_so_far` to its parameter. -/
def HitableList.intersectLoop (ray : Ray α) (t_min : α) :
    List (HitableFun α μ) → α → Option (HitRecord α μ) → Option (HitRecord α μ)
  | [], _, hit_record => hit_record
  | obj :: rest, closest_so_far, hit_record =>
    match obj ray t_min closest_so_far with
    | some hit => HitableList.intersectLoop ray t_min rest hit.parameter (some hit)
    | none => HitableList.intersectLoop ray t_min rest closest_so_far hit_record

/-- The body of `impl Hitable for HitableList { fn intersect }`. -/
def HitableList.intersect (l : HitableList α μ) (ray : Ray α) (t_min t_max : α) :
    Option (HitRecord α μ) :=
  HitableList.intersectLoop ray t_min l.hitable_objects t_max none

/-- Soundness half of the Hittable contract: a reported hit's parameter lies
strictly inside the queried window. -/
def HitSound (f : HitableFun α μ) : Prop :=
  ∀ ray t_min t_max r, f ray t_min t_max = some r →
    t_min < r.parameter ∧ r.parameter < t_max

/-- Widening half of the Hittable contract: a hit reported on a window is
reported unchanged on any window with the same lower end and a larger upper
end (the member reports its closest qualifying parameter). -/
def HitWiden (f : HitableFun α μ) : Prop :=
  ∀ ray t_min t_max t_max' r, t_max' ≤ t_max →
    f ray t_min t_max' = some r → f ray t_min t_max = some r

/-- Narrowing half of the Hittable contract: when the full-window report's
parameter still fits under a smaller upper end, the smaller window does not
report none. -/
def HitNarrow (f : HitableFun α μ) : Prop :=
  ∀ ray t_min t_max t_max' s, t_max' ≤ t_max → f ray t_min t_max = some s →
    s.parameter < t_max' → f ray t_min t_max' ≠ none

/-- The Hittable contract assumed of the members of a `HitableList` (the
`Sphere` member of this program satisfies it). -/
def HitContract (f : HitableFun α μ) : Prop :=
  HitSound f ∧ HitWiden f ∧ HitNarrow f

/-- Record `r` is the full-window report of some member, and every member
scanned before that one reports either nothing or a strictly larger
parameter: on a tie the first-scanned member's hit persists. -/
def FirstQualifying (objects : List (HitableFun α μ)) (ray : Ray α)
    (t_min t_max : α) (r : HitRecord α μ) : Prop :=
  ∃ front w back, objects = front ++ w :: back ∧ w ray t_min t_max = some r ∧
    ∀ f ∈ front, ∀ s, f ray t_min t_max = some s → r.parameter < s.parameter

theorem intersectLoop_invariant (ray : Ray α) (t_min t_max : α) :
    ∀ rest : List (HitableFun α μ), (∀ f ∈ rest, HitContract f) →
    ∀ b : HitRecord α μ, t_min < b.parameter → b.parameter < t_max →
    ∃ r, HitableList.intersectLoop ray t_min rest b.parameter (some b) = some r ∧
      t_min < r.parameter ∧ r.parameter ≤ b.parameter ∧
      (∀ f ∈ rest, ∀ s, f ray t_min t_max = some s → r.parameter ≤ s.parameter) ∧
      (r = b ∨ (r.parameter < b.parameter ∧ FirstQualifying rest ray t_min t_max r)) := by
  intro rest
  induction rest with
  | nil =>
    intro _ b hb1 _
    exact ⟨b, rfl, hb1, le_rfl, by simp, Or.inl rfl⟩
  | cons f rest ih =>
    intro hc b hb1 hb2
    obtain ⟨hSf, hWf, hNf⟩ := hc f (List.mem_cons_self f rest)
    have hcr : ∀ g ∈ rest, HitContract g := fun g hg => hc g (List.mem_cons_of_mem f hg)
    rcases hq : f ray t_min b.parameter with _ | hit
    · obtain ⟨r, hr, h1, h2, h3, h4⟩ := ih hcr b hb1 hb2
      have hfge : ∀ s, f ray t_min t_max = some s → b.parameter ≤ s.parameter := by
        intro s hs
        by_contra hlt
        push_neg at hlt
        exact hNf ray t_min t_max b.parameter s hb2.le hs hlt hq
      refine ⟨r, ?_, h1, h2, ?_, ?_⟩
      · simpa [HitableList.intersectLoop, hq] using hr
      · intro g hg s hs
        rcases List.mem_cons.mp hg with rfl | hg'
        · exact h2.trans (hfge s hs)
        · exact h3 g hg' s hs
      · rcases h4 with rfl | ⟨hlt, front, wm, back, hsplit, hw, hfront⟩
        · exact Or.inl rfl
        · refine Or.inr ⟨hlt, f :: front, wm, back, by rw [hsplit]; rfl, hw, ?_⟩
          intro g hg s hs
          rcases List.mem_cons.mp hg with rfl | hg'
          · exact lt_of_lt_of_le hlt (hfge s hs)
          · exact hfront g hg' s hs
    · obtain ⟨hh1, hh2⟩ := hSf ray t_min b.parameter hit hq
      have hfull : f ray t_min t_max = some hit :=
        hWf ray t_min t_max b.parameter hit hb2.le hq
      obtain ⟨r, hr, h1, h2, h3, h4⟩ := ih hcr hit hh1 (hh2.trans hb2)
      have hrb : r.parameter < b.parameter := lt_of_le_of_lt h2 hh2
      refine ⟨r, ?_, h1, hrb.le, ?_, Or.inr ⟨hrb, ?_⟩⟩
      · simpa [HitableList.intersectLoop, hq] using hr
      · intro g hg s hs
        rcases List.mem_cons.mp hg with rfl | hg'
        · rw [hfull] at hs
          injection hs with hs'
          rw [← hs']
          exact h2
        · exact h3 g hg' s hs
      · rcases h4 with rfl | ⟨hlt, front, wm, back, hsplit, hw, hfront⟩
        · exact ⟨[], f, rest, rfl, hfull, by simp⟩
        · refine ⟨f :: front, wm, back, by rw [hsplit]; rfl, hw, ?_⟩
          intro g hg s hs
          rcases List.mem_cons.mp hg with rfl | hg'
          · rw [hfull] at hs
            injection hs with hs'
            rw [← hs']
            exact hlt
          · exact hfront g hg' s hs

theorem intersectLoop_start (ray : Ray α) (t_min t_max : α) :
    ∀ objects : List (HitableFun α μ), (∀ f ∈ objects, HitContract f) →
    (HitableList.intersectLoop ray t_min objects t_max none = none ↔
      ∀ f ∈ objects, f ray t_min t_max = none) ∧
    (∀ r, HitableList.intersectLoop ray t_min objects t_max none = some r →
      (t_min < r.parameter ∧ r.parameter < t_max) ∧
      (∀ f ∈ objects, ∀ s, f ray t_min t_max = some s → r.parameter ≤ s.parameter) ∧
      FirstQualifying objects ray t_min t_max r) := by
  intro objects
  induction objects with
  | nil =>
    intro _
    constructor
    · simp [HitableList.intersectLoop]
    · intro r hr
      simp [HitableList.intersectLoop] at hr
  | cons f objects ih =>
    intro hc
    obtain ⟨hSf, _, _⟩ := hc f (List.mem_cons_self f objects)
    have hcr : ∀ g ∈ objects, HitContract g := fun g hg => hc g (List.mem_cons_of_mem f hg)
    obtain ⟨ihn, ihs⟩ := ih hcr
    rcases hq : f ray t_min t_max with _ | hit
    · have hstep : HitableList.intersectLoop ray t_min (f :: objects) t_max none =
          HitableList.intersectLoop ray t_min objects t_max none := by
        simp [HitableList.intersectLoop, hq]
      constructor
      · rw [hstep, ihn]
        constructor
        · intro hall g hg
          rcases List.mem_cons.mp hg with rfl | hg'
          · exact hq
          · exact hall g hg'
        · intro hall g hg
          exact hall g (List.mem_cons_of_mem f hg)
      · intro r hr
        rw [hstep] at hr
        obtain ⟨hb, hmin, hfq⟩ := ihs r hr
        refine ⟨hb, ?_, ?_⟩
        · intro g hg s hs
          rcases List.mem_cons.mp hg with rfl | hg'
          · rw [hq] at hs
            exact Option.noConfusion hs
          · exact hmin g hg' s hs
        · obtain ⟨front, wm, back, hsplit, hw, hfront⟩ := hfq
          refine ⟨f :: front, wm, back, by rw [hsplit]; rfl, hw, ?_⟩
          intro g hg s hs
          rcases List.mem_cons.mp hg with rfl | hg'
          · rw [hq] at hs
            exact Option.noConfusion hs
          · exact hfront g hg' s hs
    · obtain ⟨hh1, hh2⟩ := hSf ray t_min t_max hit hq
      obtain ⟨r, hr, h1, h2, h3, h4⟩ :=
        intersectLoop_invariant ray t_min t_max objects hcr hit hh1 hh2
      have hstep : HitableList.intersectLoop ray t_min (f :: objects) t_max none = some r := by
        simpa [HitableList.intersectLoop, hq] using hr
      constructor
      · rw [hstep]
        refine iff_of_false (by simp) ?_
        intro hall
        have := hall f (List.mem_cons_self f objects)
        rw [hq] at this
        exact Option.noConfusion this
      · intro r' hr'
        rw [hstep] at hr'
        injection hr' with he
        subst he
        refine ⟨⟨h1, lt_of_le_of_lt h2 hh2⟩, ?_, ?_⟩
        · intro g hg s hs
          rcases List.mem_cons.mp hg with rfl | hg'
          · rw [hq] at hs
            injection hs with hs'
            rw [← hs']
            exact h2
          · exact h3 g hg' s hs
        · rcases h4 with rfl | ⟨hlt, front, wm, back, hsplit, hw, hfront⟩
          · exact ⟨[], f, objects, rfl, hq, by simp⟩
          · refine ⟨f :: front, wm, back, by rw [hsplit]; rfl, hw, ?_⟩
            intro g hg s hs
            rcases List.mem_cons.mp hg with rfl | hg'
            · rw [hq] at hs
              injection hs with hs'
              rw [← hs']
              exact hlt
            · exact hfront g hg' s hs

/-- C1: for every ray, interval `(t_min, t_max)` and list of hittables whose
members obey the Hittable contract, HitableList.intersect returns the
qualifying member hit with the smallest parameter t; every returned record
has its parameter strictly inside `(t_min, t_max)`; when two members report
exactly the same parameter t the first-scanned member's hit persists (the
shrinking bound is a strict upper bound for later members); and none is
returned exactly when no member reports a qualifying hit. -/
theorem hitable_list_intersect_closest (l : HitableList α μ) (ray : Ray α)
    (t_min t_max : α) (hc : ∀ f ∈ l.hitable_objects, HitContract f) :
    (HitableList.intersect l ray t_min t_max = none ↔
      ∀ f ∈ l.hitable_objects, f ray t_min t_max = none) ∧
    (∀ r, HitableList.intersect l ray t_min t_max = some r →
      (t_min < r.parameter ∧ r.parameter < t_max) ∧
      (∀ f ∈ l.hitable_objects, ∀ s, f ray t_min t_max = some s →
        r.parameter ≤ s.parameter) ∧
      FirstQualifying l.hitable_objects ray t_min t_max r) :=
  intersectLoop_start ray t_min t_max l.hitable_objects hc

/-- A concrete single-candidate hittable used to instantiate the contract:
it reports parameter 5 whenever 5 lies inside the queried window. -/
def wrec5 : HitRecord ℚ Unit := ⟨5, ⟨0, 0, 0⟩, ⟨0, 0, 0⟩, ()⟩

/-- A concrete contract-abiding member function over `ℚ`. -/
def wmember : HitableFun ℚ Unit := fun _ t_min t_max =>
  if t_min < 5 ∧ 5 < t_max then some wrec5 else none

theorem wmember_contract : ∀ f ∈ [wmember], HitContract f := by
  intro f hf
  rw [List.mem_singleton] at hf
  subst hf
  refine ⟨?_, ?_, ?_⟩
  · intro ray t_min t_max r hr
    simp only [wmember] at hr
    split_ifs at hr with h
    injection hr with h'
    rw [← h']
    exact h
  · intro ray t_min t_max t_max' r hle hr
    simp only [wmember] at hr ⊢
    split_ifs at hr with h
    injection hr with h'
    rw [if_pos ⟨h.1, lt_of_lt_of_le h.2 hle⟩, h']
  · intro ray t_min t_max t_max' s hle hs hlt
    simp only [wmember] at hs ⊢
    split_ifs at hs with h
    injection hs with h'
    rw [← h'] at hlt
    rw [if_pos ⟨h.1, hlt⟩]
    simp

/-- The concrete one-member scene for the C1 witness. -/
def wlist : HitableList ℚ Unit := ⟨[wmember]⟩

/-- A concrete ray for the C1 witness. -/
def wray : Ray ℚ := ⟨⟨0, 0, 0⟩, ⟨1, 0, 0⟩⟩

theorem hitable_list_intersect_closest_witness :
    (HitableList.intersect wlist wray 0 10 = none ↔
      ∀ f ∈ wlist.hitable_objects, f wray 0 10 = none) ∧
    (∀ r, HitableList.intersect wlist wray 0 10 = some r →
      ((0 : ℚ) < r.parameter ∧ r.parameter < 10) ∧
      (∀ f ∈ wlist.hitable_objects, ∀ s, f wray 0 10 = some s →
        r.parameter ≤ s.parameter) ∧
      FirstQualifying wlist.hitable_objects wray 0 10 r) :=
  hitable_list_intersect_closest wlist wray 0 10 wmember_contract

/-- The identity function standing in for an exact square root on the
concrete inputs of the witnesses (only its value at 1 matters there). -/
def sqid : ℚ → ℚ := fun x => x

/-- A concrete hit record for the C3 witness. -/
def whit : HitRecord ℚ Unit := ⟨1, ⟨0, 0, 0⟩, ⟨0, 0, 1⟩, ()⟩

/-- A concrete world that reports a hit on every query. -/
def wworld : HitableFun ℚ Unit := fun _ _ _ => some whit

/-- A concrete scattered ray for the C3 witness. -/
def wray_z : Ray ℚ := ⟨⟨0, 0, 0⟩, ⟨0, 0, 1⟩⟩

/-- A concrete material dispatch that always scatters. -/
def wscat : ScatterFun ℚ Unit := fun _ _ _ => some (wray_z, ⟨1, 1, 1⟩)

theorem color_depth_cap_witness :
    color sqid wworld wscat 1000000 wray 0 =
      if (0 : ℤ) < 50 then
        (⟨1, 1, 1⟩ : Vec3 ℚ) * color sqid wworld wscat 1000000 wray_z (0 + 1)
      else
        ⟨0, 0, 0⟩ :=
  color_depth_cap sqid wworld wscat 1000000 wray 0 whit wray_z ⟨1, 1, 1⟩ rfl rfl

/-- A concrete world that reports no hit on any query. -/
def wmiss : HitableFun ℚ Unit := fun _ _ _ => none

/-- A concrete upward ray for the C7 witness. -/
def wray_up : Ray ℚ := ⟨⟨0, 0, 0⟩, ⟨0, 1, 0⟩⟩

theorem color_background_gradient_witness :
    (color sqid wmiss wscat 1000000 wray_up 0 =
        (1 - (1 / 2 : ℚ) * ((unit_vector sqid wray_up.direction).y + 1)) • (⟨1, 1, 1⟩ : Vec3 ℚ)
        + ((1 / 2 : ℚ) * ((unit_vector sqid wray_up.direction).y + 1)) •
            (⟨1 / 2, 7 / 10, 1⟩ : Vec3 ℚ)) ∧
    (wray_up.direction = ⟨0, 1, 0⟩ → sqid 1 = 1 →
      color sqid wmiss wscat 1000000 wray_up 0 = ⟨1 / 2, 7 / 10, 1⟩) ∧
    (wray_up.direction = ⟨0, -1, 0⟩ → sqid 1 = 1 →
      color sqid wmiss wscat 1000000 wray_up 0 = ⟨1, 1, 1⟩) :=
  color_background_gradient sqid wmiss wscat 1000000 wray_up 0 rfl

/-- Multiplication of an output channel value by the constant `254.99`
(`col.r().sqrt() * 254.99`); an `f32` value at the output interface is
embedded as `Option ℚ`, none standing for NaN, which propagates. -/
def fscale (v : Option ℚ) : Option ℚ := v.map (fun q => q * (25499 / 100))

/-- Rust's saturating float-to-integer cast `as u8` (the Rust reference:
NaN goes to 0, values below the range to 0, values at or above 255 to 255,
anything else truncates toward zero). -/
def rust_as_u8 (v : Option ℚ) : ℕ :=
  match v with
  | none => 0
  | some q => if q < 0 then 0 else if 255 ≤ q then 255 else (Int.floor q).toNat

/-- The per-pixel byte `(col.r().sqrt() * 254.99) as u8`; `sqf` embeds
`f32::sqrt`, which returns NaN (none) on negative input. -/
def pixel_byte (sqf : Option ℚ → Option ℚ) (channel : Option ℚ) : ℕ :=
  rust_as_u8 (fscale (sqf channel))

/-- C9: each emitted byte is the saturating conversion of
`sqrt(channel)*254.99` to u8: a scaled value at or above 255 yields exactly
255, a negative or NaN scaled value yields 0, and the byte always lies in
`[0, 255]`, so no integer-width overflow can occur at the output
interface. -/
theorem pixel_byte_saturates (sqf : Option ℚ → Option ℚ) (channel : Option ℚ) :
    pixel_byte sqf channel ≤ 255 ∧
    (∀ q, fscale (sqf channel) = some q → 255 ≤ q → pixel_byte sqf channel = 255) ∧
    (∀ q, fscale (sqf channel) = some q → q < 0 → pixel_byte sqf channel = 0) ∧
    (fscale (sqf channel) = none → pixel_byte sqf channel = 0) := by
  rcases hv : fscale (sqf channel) with _ | q
  · refine ⟨?_, ?_, ?_, ?_⟩
    · simp [pixel_byte, rust_as_u8, hv]
    · intro q hq
      exact Option.noConfusion hq
    · intro q hq
      exact Option.noConfusion hq
    · intro _
      simp [pixel_byte, rust_as_u8, hv]
  · have hpb : pixel_byte sqf channel = rust_as_u8 (some q) := by rw [pixel_byte, hv]
    refine ⟨?_, ?_, ?_, ?_⟩
    · rw [hpb]
      simp only [rust_as_u8]
      split_ifs with h1 h2
      · norm_num
      · exact le_rfl
      · have hq255 : q < 255 := not_le.mp h2
        have hfl : (Int.floor q : ℤ) < 255 := by
          have hle : ((Int.floor q : ℤ) : ℚ) < 255 := lt_of_le_of_lt (Int.floor_le q) hq255
          exact_mod_cast hle
        omega
    · intro q' hq' h255
      injection hq' with he
      subst he
      rw [hpb]
      simp only [rust_as_u8]
      rw [if_neg (by linarith), if_pos h255]
    · intro q' hq' hneg
      injection hq' with he
      subst he
      rw [hpb]
      simp only [rust_as_u8]
      rw [if_pos hneg]
    · intro h
      exact Option.noConfusion h

end Raytracer
